import Mathlib

set_option maxHeartbeats 1000000

set_option maxRecDepth 100000

namespace Debed

/-! Shallow embedding of the debedrockify migration engine (the final draft,
    the source file that contains the mysql backup and rewrite steps).
    JavaScript strings are modelled as `List Char`; `String.prototype.replace`
    with a string pattern is modelled as a first-occurrence replacement with
    the dollar-substitution rules of GetSubstitution applied to the
    replacement text. -/

/-! ### Definitions -/

def spaceC : Char := Char.ofNat 32

def dollarC : Char := Char.ofNat 36

def ampC : Char := Char.ofNat 38

def quoteC : Char := Char.ofNat 39

def eqC : Char := Char.ofNat 61

def backC : Char := Char.ofNat 96

/-- Boolean prefix test on character lists. -/
def isPreB : List Char → List Char → Bool
  | [], _ => true
  | _ :: _, [] => false
  | a :: as, b :: bs => a == b && isPreB as bs

/-- Boolean suffix test on character lists. -/
def isSufB (p s : List Char) : Bool := isPreB p.reverse s.reverse

/-- Splits a string at the first occurrence of the pattern `p`
    (the scan of `String.prototype.indexOf`): returns the text before the
    occurrence and the text after it. -/
def splitFirst (p : List Char) : List Char → Option (List Char × List Char)
  | [] => if isPreB p [] then some ([], []) else none
  | c :: s =>
      if isPreB p (c :: s) then some ([], (c :: s).drop p.length)
      else (splitFirst p s).map (fun ab => (c :: ab.1, ab.2))

/-- Substring test, `indexOf(p) !== -1`. -/
def containsSub (p s : List Char) : Bool := (splitFirst p s).isSome

/-- A part is clean for pattern `p` when it neither contains `p` nor ends in
    a nonempty proper prefix of `p`; a concatenation of clean parts can never
    contain `p`. -/
def cleanP (p s : List Char) : Prop :=
  containsSub p s = false ∧
  ∀ k, 0 < k → k < p.length → isSufB (p.take k) s = false

/-- Executable check for `cleanP`. -/
def cleanPartB (p s : List Char) : Bool :=
  !(containsSub p s) &&
    (List.range p.length).all (fun k => decide (k = 0) || !(isSufB (p.take k) s))

/-- GetSubstitution: the dollar escapes JavaScript applies to the
    replacement text of `String.prototype.replace` (no capture groups). -/
def expandRepl (matched before after : List Char) : List Char → List Char
  | [] => []
  | c :: rest =>
      if c = dollarC then
        match rest with
        | [] => [dollarC]
        | d :: rest2 =>
            if d = dollarC then dollarC :: expandRepl matched before after rest2
            else if d = ampC then matched ++ expandRepl matched before after rest2
            else if d = backC then before ++ expandRepl matched before after rest2
            else if d = quoteC then after ++ expandRepl matched before after rest2
            else dollarC :: d :: expandRepl matched before after rest2
      else c :: expandRepl matched before after rest

/-- `String.prototype.replace` with a string pattern: replace the first
    occurrence, expanding dollar escapes in the replacement. -/
def replaceFirst (p r s : List Char) : List Char :=
  match splitFirst p s with
  | some (a, b) => a ++ expandRepl p a b r ++ b
  | none => s

/-- The secret placeholder of the sample configuration file. -/
def ph : List Char := "put your unique phrase here".toList

def dbNameLit : List Char := "database_name_here".toList

def dbUserLit : List Char := "username_here".toList

def dbPassLit : List Char := "password_here".toList

def dbHostLit : List Char := "localhost".toList

def developmentLit : List Char := "development".toList

/-- EnvConfig: the environment values the templater reads.  An empty
    `dbPref` models a missing or empty DB_PREFIX (both are falsy in the
    source, which then uses the `null` replacement and skips the
    table-prefix substitution). -/
structure EnvCfg where
  dbName : List Char
  dbUser : List Char
  dbPassword : List Char
  dbHost : List Char
  wpEnv : List Char
  dbPref : List Char

/-- The find pattern of the debug-flag substitution. -/
def debugFind : List Char :=
  "define(".toList ++ [quoteC] ++ "WP_DEBUG".toList ++ [quoteC] ++
    ", false)".toList

/-- The replacement of the debug-flag substitution. -/
def debugRepl (e : EnvCfg) : List Char :=
  "define(".toList ++ [quoteC] ++ "WP_DEBUG".toList ++ [quoteC] ++
    ", ".toList ++
    (if e.wpEnv = developmentLit then "true".toList else "false".toList) ++
    ")".toList

def tpHead : List Char := "$table_prefix".toList

def tpTail : List Char := [quoteC] ++ "wp_".toList ++ [quoteC]

/-- The whitespace class of JavaScript regular expressions. -/
def isJsSpace (c : Char) : Bool :=
  decide (c.toNat = 32 ∨ c.toNat = 9 ∨ c.toNat = 10 ∨ c.toNat = 11 ∨
    c.toNat = 12 ∨ c.toNat = 13 ∨ c.toNat = 160 ∨ c.toNat = 5760 ∨
    (8192 ≤ c.toNat ∧ c.toNat ≤ 8202) ∨ c.toNat = 8232 ∨ c.toNat = 8233 ∨
    c.toNat = 8239 ∨ c.toNat = 8287 ∨ c.toNat = 12288 ∨ c.toNat = 65279)

/-- Length of the match of the table-prefix regex at the head of `s`,
    if it matches there. -/
def matchTP (s : List Char) : Option Nat :=
  if isPreB tpHead s then
    let s1 := s.drop tpHead.length
    let w1 := (s1.takeWhile isJsSpace).length
    let s2 := s1.drop w1
    match s2 with
    | [] => none
    | c :: s3 =>
        if c = eqC then
          let w2 := (s3.takeWhile isJsSpace).length
          let s4 := s3.drop w2
          if isPreB tpTail s4 then
            some (tpHead.length + w1 + 1 + w2 + tpTail.length)
          else none
        else none
  else none

/-- First regex match, scanning left to right: text before the match, the
    matched text, and the text after it. -/
def splitFirstTP : List Char → Option (List Char × List Char × List Char)
  | [] => none
  | c :: s =>
      match matchTP (c :: s) with
      | some n => some ([], (c :: s).take n, (c :: s).drop n)
      | none => (splitFirstTP s).map (fun x => (c :: x.1, x.2.1, x.2.2))

def tpRepl (e : EnvCfg) : List Char :=
  "$table_prefix = ".toList ++ [quoteC] ++ e.dbPref ++ [quoteC]

/-- The table-prefix regex substitution (first match only, no `g` flag). -/
def replaceTP (e : EnvCfg) (s : List Char) : List Char :=
  match splitFirstTP s with
  | some (a, m, b) => a ++ expandRepl m a b (tpRepl e) ++ b
  | none => s

/-- The default charset of `randomstring.generate`: alphanumeric. -/
def alnumC (c : Char) : Bool :=
  decide ((48 ≤ c.toNat ∧ c.toNat ≤ 57) ∨ (65 ≤ c.toNat ∧ c.toNat ≤ 90) ∨
    (97 ≤ c.toNat ∧ c.toNat ≤ 122))

/-- The while loop that replaces each occurrence of the secret placeholder
    with the next token of the random source `gen`, starting at token index
    `i`; returns the resulting text together with the number of replacements
    performed.  `fuel` bounds the number of iterations: the source loop is
    unbounded, and the theorems below always supply fuel proven sufficient
    for the loop to reach its exit condition. -/
def replaceSecretsK (gen : Nat → List Char) :
    Nat → Nat → List Char → List Char × Nat
  | 0, _, t => (t, 0)
  | fuel + 1, i, t =>
      match splitFirst ph t with
      | none => (t, 0)
      | some (a, b) =>
          let r := replaceSecretsK gen fuel (i + 1)
            (a ++ expandRepl ph a b (gen i) ++ b)
          (r.1, r.2 + 1)

def replaceSecrets (gen : Nat → List Char) (fuel i : Nat) (t : List Char) :
    List Char :=
  (replaceSecretsK gen fuel i t).1

def countSpaces (s : List Char) : Nat := s.countP (fun c => c == spaceC)

/-- The first five entries of the findReplace fold, applied in source
    order by sequential template reassignment: database name, user,
    password, host, then the debug flag. -/
def fold5 (e : EnvCfg) (template : List Char) : List Char :=
  replaceFirst debugFind (debugRepl e)
    (replaceFirst dbHostLit e.dbHost
      (replaceFirst dbPassLit e.dbPassword
        (replaceFirst dbUserLit e.dbUser
          (replaceFirst dbNameLit e.dbName template))))

/-- The full findReplace fold: the sixth, regex entry has replacement
    `null` when DB_PREFIX is falsy, which the loop skips with `continue`. -/
def foldTemplate (e : EnvCfg) (template : List Char) : List Char :=
  if e.dbPref = [] then fold5 e template
  else replaceTP e (fold5 e template)

/-- populateWpConfig from the source: the ordered findReplace fold followed
    by the secret-placeholder loop.  The loop fuel
    `countSpaces (foldTemplate e template)` is proven sufficient whenever
    the random tokens are alphanumeric (`replaceSecrets_fuel`). -/
def populateWpConfig (e : EnvCfg) (gen : Nat → List Char)
    (template : List Char) : List Char :=
  replaceSecrets gen (countSpaces (foldTemplate e template)) 0
    (foldTemplate e template)

/-- Number of positions at which `p` matches inside `s`. -/
def countOcc (p : List Char) : List Char → Nat
  | [] => 0
  | c :: s => (if isPreB p (c :: s) then 1 else 0) + countOcc p s

def expectedPresent : List String :=
  [".env", "web/app", "web/wp", "web/wp/wp-config-sample.php"]

def expectedAbsent : List String := ["web/wp/wp-config.php"]

def wpFolders : List String :=
  ["languages", "mu-plugins", "plugins", "themes", "uploads", "upgrade"]

/-- The two Interruption messages checkPresence can throw, with the path
    lists they format into the message. -/
inductive PresenceViolation
  | missing (paths : List String)
  | unexpected (paths : List String)
deriving DecidableEq

/-- checkPresence: probe every path, keep those whose presence differs from
    the expected status; throw for the required-present list first, and only
    when that list is empty check the required-absent list. -/
def checkPresence (ex : String → Bool) : Except PresenceViolation Unit :=
  let absent := expectedPresent.filter (fun p => !(ex p))
  if absent.length ≠ 0 then Except.error (PresenceViolation.missing absent)
  else
    let present := expectedAbsent.filter (fun p => ex p)
    if present.length ≠ 0 then
      Except.error (PresenceViolation.unexpected present)
    else Except.ok ()

/-- The required-but-absent paths named by a violation report. -/
def reportedMissing : PresenceViolation → List String
  | PresenceViolation.missing ps => ps
  | PresenceViolation.unexpected _ => []

/-- The forbidden-but-present paths named by a violation report. -/
def reportedUnexpected : PresenceViolation → List String
  | PresenceViolation.missing _ => []
  | PresenceViolation.unexpected ps => ps

/-- The uniq-accumulating scan of lodash `intersection`. -/
def uniqFrom (seen : List String) : List String → List String
  | [] => []
  | x :: xs =>
      if x ∈ seen then uniqFrom seen xs else x :: uniqFrom (x :: seen) xs

/-- lodash `intersection(a, b)`: the unique values of `a` contained in `b`,
    in the order of `a`. -/
def lodashIntersection (a b : List String) : List String :=
  uniqFrom [] (a.filter (fun x => decide (x ∈ b)))

structure ConflictData where
  names : List String
  dir1 : String
  dir2 : String
deriving DecidableEq

/-- checkConflicts on the two directory listings obtained from globby:
    intersect the entry names and throw when the intersection is nonempty. -/
def checkConflicts (path1 path2 : String) (in1 in2 : List String) :
    Except ConflictData Unit :=
  let intersect := lodashIntersection in1 in2
  if intersect.length ≠ 0 then Except.error ⟨intersect, path1, path2⟩
  else Except.ok ()

/-- lodash `trimStart(s, slash)`: remove every leading slash. -/
def trimStartSlash (s : String) : String :=
  String.mk (s.toList.dropWhile (fun c => c = Char.ofNat 47))

/-- `abs`: root, a slash, and the trimmed relative path. -/
def absPath (root p : String) : String := root ++ "/" ++ trimStartSlash p

inductive FsEffect
  | move (src dest : String)
deriving DecidableEq

inductive ArchiveOutcome
  | returnedFalse
  | moved
deriving DecidableEq

/-- archive: probe the path; on absence return `false` without touching the
    filesystem, otherwise move it under ".debedrockify/old".  The effect
    list records every filesystem mutation the call performs. -/
def archive (root : String) (ex : String → Bool) (p : String) :
    List FsEffect × ArchiveOutcome :=
  if ex p = false then ([], ArchiveOutcome.returnedFalse)
  else
    ([FsEffect.move (absPath root (trimStartSlash p))
        (absPath root (".debedrockify/old/" ++ trimStartSlash p))],
      ArchiveOutcome.moved)

def siteurlKey : List Char := "siteurl".toList

def homeKey : List Char := "home".toList

/-- updateDbSiteUrl on the modelled options table: DELETE every row whose
    option name is siteurl or home, then INSERT the two rows carrying the
    configured URL. -/
def updateDbSiteUrl (url : List Char) (rows : List (List Char × List Char)) :
    List (List Char × List Char) :=
  (rows.filter (fun r => !(r.1 == siteurlKey || r.1 == homeKey))) ++
    [(siteurlKey, url), (homeKey, url)]

/-- Success or failure of each awaited database step of one run. -/
structure DbOracle where
  backupOk : Bool
  connectOk : Bool
  updateOk : Bool
  disconnectOk : Bool

inductive DbStep
  | backup
  | connect
  | updateSiteUrl
  | disconnect
deriving DecidableEq

/-- Sequential await chain: each listed step is invoked in order; a step
    that fails stops the chain (its rejection propagates out).  The trace
    records every invoked step with its outcome. -/
def runSeq : List (DbStep × Bool) → List (DbStep × Bool) × Bool
  | [] => ([], true)
  | (s, ok) :: rest =>
      if ok then
        let r := runSeq rest
        ((s, true) :: r.1, r.2)
      else ([(s, false)], false)

/-- doDb: backup, connect, rewrite, disconnect, strictly in this order,
    with no try/finally around any step. -/
def doDb (o : DbOracle) : List (DbStep × Bool) × Bool :=
  runSeq [(DbStep.backup, o.backupOk), (DbStep.connect, o.connectOk),
    (DbStep.updateSiteUrl, o.updateOk), (DbStep.disconnect, o.disconnectOk)]

/-- The step was invoked during the database phase. -/
def invoked (o : DbOracle) (s : DbStep) : Bool :=
  (doDb o).1.any (fun e => e.1 == s)

/-- The step completed successfully during the database phase. -/
def completed (o : DbOracle) (s : DbStep) : Bool :=
  (doDb o).1.any (fun e => e.1 == s && e.2)

/-- Position of the step in the trace of the database phase. -/
def stepPos (o : DbOracle) (s : DbStep) : Nat :=
  (doDb o).1.findIdx (fun e => e.1 == s)

inductive Stage
  | mkOldDir
  | readEnvFile
  | readTemplate
  | writeConfig
  | dbBackup
  | dbConnect
  | dbUpdate
  | dbDisconnect
deriving DecidableEq

/-- The two error kinds of the top-level catch: the deliberate
    `Interruption` (a presence or conflict violation) and every other
    failure. -/
inductive JsError
  | interruption (v : PresenceViolation ⊕ ConflictData)
  | unexpected (s : Stage)

/-- One run's view of the outside world: the existence probe, the directory
    listings, and the success of each fallible I/O stage. -/
structure World where
  pathKnown : String → Bool
  listing : String → List String
  mkOldDirOk : Bool
  readEnvOk : Bool
  readTemplateOk : Bool
  writeConfigOk : Bool
  db : DbOracle

/-- The per-category conflict checks of sanityChecks, in enumeration
    order. -/
def conflictsFor (w : World) : List String → Except JsError Unit
  | [] => Except.ok ()
  | f :: rest =>
      let d1 := "web/app/" ++ f
      let d2 := "web/wp/wp-content/" ++ f
      match checkConflicts d1 d2 (w.listing d1) (w.listing d2) with
      | Except.error c => Except.error (JsError.interruption (Sum.inr c))
      | Except.ok _ => conflictsFor w rest

def sanityChecks (w : World) : Except JsError Unit :=
  match checkPresence w.pathKnown with
  | Except.error v => Except.error (JsError.interruption (Sum.inl v))
  | Except.ok _ => conflictsFor w wpFolders

/-- The first failing step of the database phase, if any. -/
def dbFailStage (o : DbOracle) : Option Stage :=
  if !o.backupOk then some Stage.dbBackup
  else if !o.connectOk then some Stage.dbConnect
  else if !o.updateOk then some Stage.dbUpdate
  else if !o.disconnectOk then some Stage.dbDisconnect
  else none

/-- The phase sequence of `run()` in the final draft: sanity checks, create
    the quarantine directory, read the env file, render and write the
    config, then the database phase.  Any stage's failure aborts all later
    stages. -/
def runEngine (w : World) : Except JsError Unit :=
  match sanityChecks w with
  | Except.error e => Except.error e
  | Except.ok _ =>
      if !w.mkOldDirOk then Except.error (JsError.unexpected Stage.mkOldDir)
      else if !w.readEnvOk then
        Except.error (JsError.unexpected Stage.readEnvFile)
      else if !w.readTemplateOk then
        Except.error (JsError.unexpected Stage.readTemplate)
      else if !w.writeConfigOk then
        Except.error (JsError.unexpected Stage.writeConfig)
      else
        match dbFailStage w.db with
        | some st => Except.error (JsError.unexpected st)
        | none => Except.ok ()

/-- The top-level catch: an `Interruption` exits with code 1, any other
    rejection with code 127, and a completed run ends the process normally
    with exit code 0. -/
def mainExitCode : Except JsError Unit → Nat
  | Except.ok _ => 0
  | Except.error (JsError.interruption _) => 1
  | Except.error (JsError.unexpected _) => 127

/-- Cleanliness of a template segment for the placeholder: the segment does
    not contain the placeholder, does not end in a nonempty proper prefix
    of it, does not begin with a proper suffix of it, and is not itself a
    fragment of a proper suffix of it. -/
def phClean (s : List Char) : Prop :=
  containsSub ph s = false ∧
  (∀ k, 0 < k → k < ph.length → isSufB (ph.take k) s = false) ∧
  (∀ k, 0 < k → k < ph.length →
    isPreB (ph.drop k) s = false ∧ isPreB s (ph.drop k) = false)

/-- Executable check for `phClean`. -/
def phCleanB (s : List Char) : Bool :=
  !(containsSub ph s) &&
    (List.range ph.length).all (fun k =>
      decide (k = 0) ||
        (!(isSufB (ph.take k) s) && !(isPreB (ph.drop k) s) &&
          !(isPreB s (ph.drop k))))

/-- A structured template: segments joined by the secret placeholder. -/
def joinWithPh : List (List Char) → List Char
  | [] => []
  | [s] => s
  | s :: s2 :: rest => s ++ ph ++ joinWithPh (s2 :: rest)

/-- The same segments joined by the random tokens, one per junction,
    starting at token index `i`. -/
def joinWithTokens (gen : Nat → List Char) :
    Nat → List (List Char) → List Char
  | _, [] => []
  | _, [s] => s
  | i, s :: s2 :: rest => s ++ gen i ++ joinWithTokens gen (i + 1) (s2 :: rest)

/-- An alphanumeric 64-character token. -/
def aTok : List Char := List.replicate 64 (Char.ofNat 97)

/-- The adversarial template of the loop counterexamples: its text before
    the single placeholder occurrence ends with a partial copy of the
    placeholder. -/
def cexTemplate : List Char :=
  "put your unique phrase put your unique phrase here".toList

/-- An alphanumeric 64-character token beginning with "here". -/
def cexToken : List Char := "here".toList ++ List.replicate 60 (Char.ofNat 97)

/-- A random source yielding pairwise distinct alphanumeric tokens whose
    first token begins with "here". -/
def cexGen : Nat → List Char :=
  fun n => (if n = 0 then "here".toList else "Zere".toList) ++
    List.replicate 60 (Char.ofNat 97)

/-- The four legacy literals of the fold. -/
def lits4 : List (List Char) := [dbNameLit, dbUserLit, dbPassLit, dbHostLit]

/-- Every pattern the fold and the loop look for. -/
def patsAll : List (List Char) :=
  [dbNameLit, dbUserLit, dbPassLit, dbHostLit, debugFind, tpHead, ph]

/-- Clean for every pattern the fold and the loop look for. -/
def cleanAll (s : List Char) : Prop := ∀ p ∈ patsAll, cleanP p s

/-- Executable check for `cleanAll`. -/
def cleanAllB (s : List Char) : Bool := patsAll.all (fun p => cleanPartB p s)

/-- A template with each of the four legacy literals exactly once, in the
    order of the fold. -/
def structTemplate (s0 s1 s2 s3 s4 : List Char) : List Char :=
  s0 ++ dbNameLit ++ s1 ++ dbUserLit ++ s2 ++ dbPassLit ++ s3 ++
    dbHostLit ++ s4

/-- The spec's own example host value: with DB_HOST equal to "localhost"
    the substitution rewrites the literal to itself. -/
def c5cexEnv : EnvCfg :=
  ⟨"wp".toList, "u".toList, "p".toList, "localhost".toList,
    "production".toList, []⟩

def c5cexTemplate : List Char :=
  "database_name_here username_here password_here localhost".toList

/-- The clean example environment of the C5 witness. -/
def c5wEnv : EnvCfg :=
  ⟨"WP1".toList, "USR".toList, "PWD".toList, "HST".toList,
    "production".toList, []⟩

/-! ### Theorems -/

theorem isPreB_iff (p s : List Char) : isPreB p s = true ↔ ∃ t, s = p ++ t := by
  induction p generalizing s with
  | nil => simp [isPreB]
  | cons a as ih =>
    cases s with
    | nil => simp [isPreB]
    | cons b bs =>
      simp only [isPreB, Bool.and_eq_true, beq_iff_eq, ih, List.cons_append,
        List.cons.injEq]
      constructor
      · rintro ⟨rfl, t, rfl⟩; exact ⟨t, rfl, rfl⟩
      · rintro ⟨t, rfl, rfl⟩; exact ⟨rfl, t, rfl⟩

theorem isSufB_iff (p s : List Char) : isSufB p s = true ↔ ∃ t, s = t ++ p := by
  unfold isSufB
  rw [isPreB_iff]
  constructor
  · rintro ⟨t, ht⟩
    refine ⟨t.reverse, ?_⟩
    have := congrArg List.reverse ht
    simpa [List.reverse_append] using this
  · rintro ⟨t, rfl⟩
    exact ⟨t.reverse, by simp [List.reverse_append]⟩

theorem isSufB_self (s : List Char) : isSufB s s = true := by
  rw [isSufB_iff]; exact ⟨[], rfl⟩

theorem isPreB_self_append (s t : List Char) : isPreB s (s ++ t) = true := by
  rw [isPreB_iff]; exact ⟨t, rfl⟩

theorem isPreB_trans {a b c : List Char} (h1 : isPreB a b = true)
    (h2 : isPreB b c = true) : isPreB a c = true := by
  rw [isPreB_iff] at h1 h2 ⊢
  obtain ⟨t, rfl⟩ := h1
  obtain ⟨u, rfl⟩ := h2
  exact ⟨t ++ u, by simp⟩

theorem isSufB_cons {f : List Char} {c : Char} {s : List Char}
    (h : isSufB f s = true) : isSufB f (c :: s) = true := by
  rw [isSufB_iff] at h ⊢
  obtain ⟨t, rfl⟩ := h
  exact ⟨c :: t, rfl⟩

theorem mem_of_isPreB {p s : List Char} (h : isPreB p s = true) :
    ∀ c ∈ p, c ∈ s := by
  rw [isPreB_iff] at h
  obtain ⟨t, rfl⟩ := h
  intro c hc
  exact List.mem_append_left _ hc

theorem mem_of_isSufB {p s : List Char} (h : isSufB p s = true) :
    ∀ c ∈ p, c ∈ s := by
  rw [isSufB_iff] at h
  obtain ⟨t, rfl⟩ := h
  intro c hc
  exact List.mem_append_right _ hc

theorem splitFirst_some {p s a b : List Char}
    (h : splitFirst p s = some (a, b)) : s = a ++ p ++ b := by
  induction s generalizing a b with
  | nil =>
    by_cases hp : isPreB p [] = true
    · simp [splitFirst, hp] at h
      obtain ⟨rfl, rfl⟩ := h
      rw [isPreB_iff] at hp
      obtain ⟨t, ht⟩ := hp
      cases p with
      | nil => rfl
      | cons x xs => simp at ht
    · simp [splitFirst, hp] at h
  | cons c s ih =>
    by_cases hp : isPreB p (c :: s) = true
    · simp [splitFirst, hp] at h
      obtain ⟨rfl, rfl⟩ := h
      have := (isPreB_iff p (c :: s)).mp hp
      obtain ⟨t, ht⟩ := this
      rw [ht]
      simp [List.drop_left]
    · simp only [splitFirst, hp, if_false] at h
      cases hsf : splitFirst p s with
      | none => rw [hsf] at h; simp at h
      | some ab =>
        obtain ⟨a', b'⟩ := ab
        rw [hsf] at h
        simp at h
        obtain ⟨rfl, rfl⟩ := h
        have := ih hsf
        simp [this]

theorem containsSub_cons (p : List Char) (c : Char) (s : List Char) :
    containsSub p (c :: s) = (isPreB p (c :: s) || containsSub p s) := by
  by_cases hp : isPreB p (c :: s) = true
  · simp [containsSub, splitFirst, hp]
  · simp only [containsSub, splitFirst, hp, if_false, Bool.false_or]
    cases hsf : splitFirst p s with
    | none => simp [hsf]
    | some ab => simp [hsf]

theorem containsSub_iff (p s : List Char) :
    containsSub p s = true ↔ ∃ a b, s = a ++ p ++ b := by
  constructor
  · intro h
    unfold containsSub at h
    cases hsf : splitFirst p s with
    | none => rw [hsf] at h; simp at h
    | some ab => exact ⟨ab.1, ab.2, splitFirst_some (by rw [hsf])⟩
  · rintro ⟨a, b, rfl⟩
    induction a with
    | nil =>
      simp only [List.nil_append]
      cases hpb : (p ++ b) with
      | nil =>
        have hp : p = [] := (List.append_eq_nil.mp hpb).1
        have hb : b = [] := (List.append_eq_nil.mp hpb).2
        subst hp; subst hb
        simp [containsSub, splitFirst, isPreB]
      | cons c t =>
        rw [containsSub_cons]
        have hpre : isPreB p (c :: t) = true := by
          rw [isPreB_iff]; exact ⟨b, hpb.symm⟩
        rw [hpre]
        simp
    | cons c a ih =>
      have h2 : containsSub p (c :: (a ++ p ++ b)) = true := by
        rw [containsSub_cons, ih]
        simp
      simpa using h2

theorem containsSub_of_tail {p : List Char} {c : Char} {s : List Char}
    (h : containsSub p s = true) : containsSub p (c :: s) = true := by
  rw [containsSub_cons, h, Bool.or_true]

theorem mem_of_containsSub {p s : List Char} (h : containsSub p s = true) :
    ∀ c ∈ p, c ∈ s := by
  rw [containsSub_iff] at h
  obtain ⟨a, b, rfl⟩ := h
  intro c hc
  exact List.mem_append_left _ (List.mem_append_right _ hc)

theorem boolAbsurd {C : Prop} (h : (true : Bool) = false) : C :=
  absurd h (by simp)

theorem containsSub_of_isPreB {p s : List Char} (h : isPreB p s = true) :
    containsSub p s = true := by
  rw [isPreB_iff] at h
  obtain ⟨t, rfl⟩ := h
  rw [containsSub_iff]
  exact ⟨[], t, rfl⟩

theorem containsSub_cons_false {p : List Char} {c : Char} {s : List Char}
    (h : containsSub p (c :: s) = false) :
    isPreB p (c :: s) = false ∧ containsSub p s = false := by
  rw [containsSub_cons] at h
  exact ⟨by cases hb : isPreB p (c :: s) <;> simp_all,
         by cases hb : containsSub p s <;> simp_all⟩

/-- A prefix of an append is a prefix of the left part, or it consumes the
    left part entirely and continues as a prefix of the right part. -/
theorem isPreB_append_split {f a b : List Char} (h : isPreB f (a ++ b) = true) :
    (f.length ≤ a.length ∧ isPreB f a = true) ∨
    (a.length < f.length ∧ a = f.take a.length ∧
      isPreB (f.drop a.length) b = true) := by
  induction a generalizing f with
  | nil =>
    cases f with
    | nil => exact Or.inl ⟨Nat.le_refl 0, rfl⟩
    | cons d f' =>
      right
      refine ⟨by simp, by simp, ?_⟩
      simpa using h
  | cons c a' ih =>
    cases f with
    | nil => exact Or.inl ⟨by simp, rfl⟩
    | cons d f' =>
      simp only [List.cons_append, isPreB, Bool.and_eq_true, beq_iff_eq] at h
      obtain ⟨rfl, h2⟩ := h
      rcases ih h2 with ⟨hl, hpre⟩ | ⟨hl, ha, hpre⟩
      · left
        refine ⟨by simpa using Nat.succ_le_succ hl, ?_⟩
        simp [isPreB, hpre]
      · right
        refine ⟨by simpa using Nat.succ_lt_succ hl, ?_, ?_⟩
        · simp only [List.length_cons, List.take_succ_cons, List.cons.injEq]
          exact ⟨by trivial, ha⟩
        · simpa using hpre

/-- A suffix of an append is a suffix of the right part, or it consumes the
    right part entirely and its remaining head is a suffix of the left part. -/
theorem isSufB_append_split {f a b : List Char} (h : isSufB f (a ++ b) = true) :
    (f.length ≤ b.length ∧ isSufB f b = true) ∨
    (b.length < f.length ∧ b = f.drop (f.length - b.length) ∧
      isSufB (f.take (f.length - b.length)) a = true) := by
  rw [isSufB_iff] at h
  obtain ⟨u, hu⟩ := h
  by_cases hl : a.length ≤ u.length
  · left
    have hb : b = u.drop a.length ++ f := by
      have h1 := congrArg (List.drop a.length) hu
      rw [List.drop_left] at h1
      rw [List.drop_append_eq_append_drop, Nat.sub_eq_zero_of_le hl,
        List.drop_zero] at h1
      exact h1
    have hblen : b.length = (u.drop a.length).length + f.length := by
      rw [hb]; simp
    constructor
    · omega
    · rw [isSufB_iff]; exact ⟨u.drop a.length, hb⟩
  · right
    push_neg at hl
    have hf : f = a.drop u.length ++ b := by
      have h1 := congrArg (List.drop u.length) hu
      rw [List.drop_append_eq_append_drop, Nat.sub_eq_zero_of_le (le_of_lt hl),
        List.drop_zero] at h1
      rw [List.drop_left] at h1
      exact h1.symm
    have hdlen : (a.drop u.length).length = a.length - u.length := by simp
    have hflen : f.length = a.length - u.length + b.length := by
      rw [hf]; simp
    have hlen : f.length - b.length = (a.drop u.length).length := by omega
    refine ⟨by omega, ?_, ?_⟩
    · rw [hlen, hf, List.drop_left]
    · rw [hlen, hf, List.take_left, isSufB_iff]
      exact ⟨a.take u.length, (List.take_append_drop u.length a).symm⟩

/-- An occurrence of `p` inside `x ++ y` lies inside `x`, lies inside `y`,
    or crosses the boundary: a nonempty proper prefix of `p` is a suffix of
    `x` and the matching remainder of `p` is a prefix of `y`. -/
theorem containsSub_append_split {p x y : List Char}
    (h : containsSub p (x ++ y) = true) :
    containsSub p x = true ∨ containsSub p y = true ∨
    ∃ k, 0 < k ∧ k < p.length ∧ isSufB (p.take k) x = true ∧
      isPreB (p.drop k) y = true := by
  induction x with
  | nil => right; left; simpa using h
  | cons c x' ih =>
    rw [List.cons_append, containsSub_cons, Bool.or_eq_true] at h
    rcases h with hpre | hcontains
    · have hp2 : isPreB p ((c :: x') ++ y) = true := by simpa using hpre
      rcases isPreB_append_split hp2 with ⟨hl, hpx⟩ | ⟨hl, ha, hpy⟩
      · exact Or.inl (containsSub_of_isPreB hpx)
      · right; right
        refine ⟨(c :: x').length, by simp, hl, ?_, hpy⟩
        rw [← ha]
        exact isSufB_self _
    · rcases ih hcontains with hx | hy | ⟨k, hk1, hk2, hsuf, hpre2⟩
      · exact Or.inl (containsSub_of_tail hx)
      · exact Or.inr (Or.inl hy)
      · exact Or.inr (Or.inr ⟨k, hk1, hk2, isSufB_cons hsuf, hpre2⟩)

theorem cleanPartB_spec {p s : List Char} (h : cleanPartB p s = true) :
    cleanP p s := by
  unfold cleanPartB at h
  rw [Bool.and_eq_true] at h
  obtain ⟨h1, h2⟩ := h
  rw [List.all_eq_true] at h2
  constructor
  · cases hc : containsSub p s
    · rfl
    · rw [hc] at h1; simp at h1
  · intro k hk1 hk2
    have := h2 k (List.mem_range.mpr hk2)
    rw [Bool.or_eq_true] at this
    rcases this with hz | hns
    · simp at hz; omega
    · cases hs : isSufB (p.take k) s
      · rfl
      · rw [hs] at hns; simp at hns

theorem cleanP_append {p a b : List Char}
    (ha : cleanP p a) (hb : cleanP p b) : cleanP p (a ++ b) := by
  obtain ⟨h1c, h1s⟩ := ha
  obtain ⟨h2c, h2s⟩ := hb
  constructor
  · cases hcs : containsSub p (a ++ b)
    · rfl
    · exfalso
      rcases containsSub_append_split hcs with hx | hy | ⟨k, hk1, hk2, hsuf, _⟩
      · rw [hx] at h1c; exact boolAbsurd h1c
      · rw [hy] at h2c; exact boolAbsurd h2c
      · have := h1s k hk1 hk2
        rw [hsuf] at this; exact boolAbsurd this
  · intro k hk1 hk2
    cases hsb : isSufB (p.take k) (a ++ b)
    · rfl
    · exfalso
      have hfl : (p.take k).length ≤ k := by simp
      rcases isSufB_append_split hsb with ⟨hl, hfb⟩ | ⟨hl, hbeq, hsufa⟩
      · have := h2s k hk1 hk2
        rw [hfb] at this; exact boolAbsurd this
      · set f := p.take k with hfdef
        set j := f.length - b.length with hjdef
        have hjk : j ≤ k := by
          have : f.length ≤ k := by simp [hfdef]
          omega
        have hfj : f.take j = p.take j := by
          rw [hfdef, List.take_take]
          congr 1
          omega
        have hj1 : 0 < j := by omega
        have hj2 : j < p.length := by
          have : f.length ≤ k := by simp [hfdef]
          omega
        have := h1s j hj1 hj2
        rw [← hfj] at this
        rw [hsufa] at this
        exact boolAbsurd this

theorem splitFirst_self_append {p r : List Char} (hp : p ≠ []) :
    splitFirst p (p ++ r) = some ([], r) := by
  cases p with
  | nil => exact absurd rfl hp
  | cons d p' =>
    rw [List.cons_append]
    have hpre : isPreB (d :: p') (d :: (p' ++ r)) = true := by
      simpa using isPreB_self_append (d :: p') r
    simp only [splitFirst, hpre, if_true]
    simp only [List.length_cons, List.drop_succ_cons, Option.some.injEq,
      Prod.mk.injEq, true_and]
    exact List.drop_left p' r

/-- If the text preceding a designated occurrence of `p` is clean for `p`,
    the scan of `splitFirst` finds exactly that occurrence. -/
theorem firstAt {p x r : List Char} (hp : p ≠ [])
    (hcl : cleanP p x) :
    splitFirst p (x ++ p ++ r) = some (x, r) := by
  obtain ⟨h1, h2⟩ := hcl
  induction x with
  | nil =>
    simp only [List.nil_append]
    exact splitFirst_self_append hp
  | cons c x' ih =>
    have hx'1 : containsSub p x' = false := (containsSub_cons_false h1).2
    have hx'2 : ∀ k, 0 < k → k < p.length → isSufB (p.take k) x' = false := by
      intro k hk1 hk2
      cases hs : isSufB (p.take k) x'
      · rfl
      · have := h2 k hk1 hk2
        rw [isSufB_cons hs] at this
        exact absurd this (by simp)
    have hnot : isPreB p (c :: (x' ++ (p ++ r))) = false := by
      cases hb : isPreB p (c :: (x' ++ (p ++ r)))
      · rfl
      · exfalso
        have hp2 : isPreB p ((c :: x') ++ (p ++ r)) = true := by simpa using hb
        rcases isPreB_append_split hp2 with ⟨hl, hpx⟩ | ⟨hl, ha, _⟩
        · have := containsSub_of_isPreB hpx
          rw [this] at h1; exact boolAbsurd h1
        · have hsuf : isSufB (p.take (c :: x').length) (c :: x') = true := by
            rw [← ha]; exact isSufB_self _
          have := h2 (c :: x').length (by simp) hl
          rw [hsuf] at this; exact boolAbsurd this
    have ihres := ih hx'1 hx'2
    simp only [List.cons_append, List.append_assoc] at ihres ⊢
    simp only [splitFirst, hnot, if_false]
    rw [ihres]
    rfl

theorem expandRepl_id {m a b r : List Char} (h : dollarC ∉ r) :
    expandRepl m a b r = r := by
  induction r with
  | nil => rfl
  | cons c rest ih =>
    have hc : c ≠ dollarC := fun hc => h (hc ▸ List.mem_cons_self c rest)
    have hrest : dollarC ∉ rest := fun hm => h (List.mem_cons_of_mem c hm)
    rw [expandRepl.eq_def]
    simp [hc, ih hrest]

theorem replaceFirst_of_not_contains {p r s : List Char}
    (h : containsSub p s = false) : replaceFirst p r s = s := by
  unfold replaceFirst
  unfold containsSub at h
  cases hsf : splitFirst p s with
  | none => rfl
  | some ab => rw [hsf] at h; simp at h

/-- Replacing when the prefix before the designated occurrence is clean
    rewrites exactly that occurrence. -/
theorem replaceFirst_at {p v x t : List Char} (hp : p ≠ [])
    (hcl : cleanP p x) (hv : dollarC ∉ v) :
    replaceFirst p v (x ++ p ++ t) = x ++ v ++ t := by
  have hsplit : splitFirst p (x ++ p ++ t) = some (x, t) := firstAt hp hcl
  show (match splitFirst p (x ++ p ++ t) with
        | some (a, b) => a ++ expandRepl p a b v ++ b
        | none => x ++ p ++ t) = x ++ v ++ t
  rw [hsplit]
  show x ++ expandRepl p x t v ++ t = x ++ v ++ t
  rw [expandRepl_id hv]

theorem mem_uniqFrom (y : String) (l : List String) :
    ∀ seen, (y ∈ uniqFrom seen l ↔ y ∈ l ∧ y ∉ seen) := by
  induction l with
  | nil => intro seen; simp [uniqFrom]
  | cons x xs ih =>
    intro seen
    by_cases hx : x ∈ seen
    · rw [uniqFrom, if_pos hx, ih seen]
      constructor
      · rintro ⟨hy, hns⟩; exact ⟨List.mem_cons_of_mem x hy, hns⟩
      · rintro ⟨hy, hns⟩
        rcases List.mem_cons.mp hy with rfl | hy'
        · exact absurd hx hns
        · exact ⟨hy', hns⟩
    · rw [uniqFrom, if_neg hx]
      constructor
      · intro hy
        rcases List.mem_cons.mp hy with rfl | hy'
        · exact ⟨List.mem_cons_self y xs, hx⟩
        · have := (ih (x :: seen)).mp hy'
          refine ⟨List.mem_cons_of_mem x this.1, fun hs => this.2 ?_⟩
          exact List.mem_cons_of_mem x hs
      · rintro ⟨hy, hns⟩
        rcases List.mem_cons.mp hy with rfl | hy'
        · exact List.mem_cons_self y _
        · by_cases hyx : y = x
          · subst hyx; exact List.mem_cons_self y _
          · refine List.mem_cons_of_mem x ((ih (x :: seen)).mpr ⟨hy', ?_⟩)
            intro hs
            rcases List.mem_cons.mp hs with h | h
            · exact hyx h
            · exact hns h

theorem mem_lodashIntersection (a b : List String) (y : String) :
    y ∈ lodashIntersection a b ↔ y ∈ a ∧ y ∈ b := by
  unfold lodashIntersection
  rw [mem_uniqFrom]
  simp [List.mem_filter]

/-- C1: in every run of the database phase, the site-URL rewrite is invoked
    only after the backup step completed successfully and the connection
    opened; when the backup fails the run performs no database mutation:
    the rewrite is never invoked and the trace holds only the failed backup
    attempt. -/
theorem c1_backup_before_rewrite (o : DbOracle) :
    (o.backupOk = false →
      invoked o DbStep.updateSiteUrl = false ∧
      (doDb o).1 = [(DbStep.backup, false)]) ∧
    (invoked o DbStep.updateSiteUrl = true →
      o.backupOk = true ∧ completed o DbStep.backup = true ∧
      stepPos o DbStep.backup < stepPos o DbStep.updateSiteUrl) := by
  rcases o with ⟨b, c, u, d⟩
  cases b <;> cases c <;> cases u <;> cases d <;>
    exact ⟨fun h => by revert h; decide, fun h => by revert h; decide⟩

/-- Witness for C1, at an oracle whose backup step fails:
    the rewrite step is not invoked and the trace is the failed backup. -/
theorem c1_backup_before_rewrite_witness :
    invoked ⟨false, true, true, true⟩ DbStep.updateSiteUrl = false ∧
    (doDb ⟨false, true, true, true⟩).1 = [(DbStep.backup, false)] :=
  (c1_backup_before_rewrite ⟨false, true, true, true⟩).1 rfl

/-- C2 counterexample: at the oracle where backup and connect succeed but
    the rewrite fails, the connection is opened (connect completed) yet
    mysqlDisconnect is never invoked before the run ends, so the connection
    is not closed on this exit path. -/
theorem c2_counterexample :
    completed ⟨true, true, false, true⟩ DbStep.connect = true ∧
    invoked ⟨true, true, false, true⟩ DbStep.disconnect = false ∧
    (doDb ⟨true, true, false, true⟩).2 = false := by
  decide

/-- C2 amended: mysqlDisconnect is invoked exactly when backup, connect and
    the site-URL rewrite all succeed; in particular, when the rewrite step
    fails after a successful connect, the rejection propagates out of doDb
    and the connection is never closed by the program. -/
theorem c2_disconnect_iff (o : DbOracle) :
    invoked o DbStep.disconnect =
      (o.backupOk && o.connectOk && o.updateOk) := by
  rcases o with ⟨b, c, u, d⟩
  cases b <;> cases c <;> cases u <;> cases d <;> decide

/-- C3 counterexample: on the existence assignment where only the forbidden
    path exists, checkPresence throws the missing-paths report; the
    forbidden path is present (a violation of the second kind), yet the
    report carries an empty forbidden-but-present list, so the report does
    not list every violating path in two lists. -/
theorem c3_counterexample :
    checkPresence (fun p => p == "web/wp/wp-config.php") =
      Except.error (PresenceViolation.missing expectedPresent) ∧
    expectedAbsent.filter (fun p => p == "web/wp/wp-config.php") =
      expectedAbsent ∧
    reportedUnexpected (PresenceViolation.missing expectedPresent) = [] := by
  refine ⟨?_, ?_, rfl⟩ <;> rfl

/-- C3 amended: checkPresence raises a violation iff some required-present
    path is absent or some required-absent path is present; when at least
    one required path is absent the report lists exactly the absent required
    paths (and nothing about forbidden paths); only when every required path
    is present does it report the present forbidden paths, listing all of
    them. -/
theorem c3_check_presence (ex : String → Bool) :
    (checkPresence ex = Except.ok () ↔
      (∀ p ∈ expectedPresent, ex p = true) ∧
      (∀ p ∈ expectedAbsent, ex p = false)) ∧
    (expectedPresent.filter (fun p => !(ex p)) ≠ [] →
      checkPresence ex = Except.error
        (PresenceViolation.missing
          (expectedPresent.filter (fun p => !(ex p))))) ∧
    (expectedPresent.filter (fun p => !(ex p)) = [] →
      expectedAbsent.filter (fun p => ex p) ≠ [] →
      checkPresence ex = Except.error
        (PresenceViolation.unexpected
          (expectedAbsent.filter (fun p => ex p)))) := by
  have hA : (expectedPresent.filter (fun p => !(ex p)) = []) ↔
      ∀ p ∈ expectedPresent, ex p = true := by
    rw [List.filter_eq_nil_iff]
    constructor
    · intro h p hp
      have := h p hp
      cases hex : ex p
      · rw [hex] at this; simp at this
      · rfl
    · intro h p hp
      rw [h p hp]; simp
  have hP : (expectedAbsent.filter (fun p => ex p) = []) ↔
      ∀ p ∈ expectedAbsent, ex p = false := by
    rw [List.filter_eq_nil_iff]
    constructor
    · intro h p hp
      cases hex : ex p
      · rfl
      · exact absurd hex (h p hp)
    · intro h p hp
      rw [h p hp]; simp
  have e1 : expectedPresent.filter (fun p => !(ex p)) ≠ [] →
      checkPresence ex = Except.error
        (PresenceViolation.missing
          (expectedPresent.filter (fun p => !(ex p)))) := by
    intro hne
    have h1 : (expectedPresent.filter (fun p => !(ex p))).length ≠ 0 :=
      fun h0 => hne (List.length_eq_zero.mp h0)
    unfold checkPresence
    rw [if_pos h1]
  have e2 : expectedPresent.filter (fun p => !(ex p)) = [] →
      expectedAbsent.filter (fun p => ex p) ≠ [] →
      checkPresence ex = Except.error
        (PresenceViolation.unexpected
          (expectedAbsent.filter (fun p => ex p))) := by
    intro hA' hne
    have h1 : ¬((expectedPresent.filter (fun p => !(ex p))).length ≠ 0) := by
      rw [hA']; simp
    have h2 : (expectedAbsent.filter (fun p => ex p)).length ≠ 0 :=
      fun h0 => hne (List.length_eq_zero.mp h0)
    unfold checkPresence
    rw [if_neg h1, if_pos h2]
  have e3 : expectedPresent.filter (fun p => !(ex p)) = [] →
      expectedAbsent.filter (fun p => ex p) = [] →
      checkPresence ex = Except.ok () := by
    intro hA' hP'
    have h1 : ¬((expectedPresent.filter (fun p => !(ex p))).length ≠ 0) := by
      rw [hA']; simp
    have h2 : ¬((expectedAbsent.filter (fun p => ex p)).length ≠ 0) := by
      rw [hP']; simp
    unfold checkPresence
    rw [if_neg h1, if_neg h2]
  refine ⟨?_, fun h => e1 h, fun h1 h2 => e2 h1 h2⟩
  constructor
  · intro h
    by_cases hA1 : expectedPresent.filter (fun p => !(ex p)) = []
    · by_cases hP1 : expectedAbsent.filter (fun p => ex p) = []
      · exact ⟨hA.mp hA1, hP.mp hP1⟩
      · rw [e2 hA1 hP1] at h
        exact absurd h (by simp)
    · rw [e1 hA1] at h
      exact absurd h (by simp)
  · rintro ⟨h1, h2⟩
    exact e3 (hA.mpr h1) (hP.mpr h2)

/-- Witness for C3 amended, at the all-absent existence assignment: the
    required-present filter is nonempty and the missing report is thrown. -/
theorem c3_check_presence_witness :
    checkPresence (fun _ => false) = Except.error
      (PresenceViolation.missing
        (expectedPresent.filter (fun p => !((fun _ => false) p)))) :=
  (c3_check_presence (fun _ => false)).2.1 (by decide)

/-- C4: checkConflicts succeeds whenever the two listings share no entry
    name, and when they share at least one name it fails with a report whose
    name set is exactly the intersection of the two listings' name sets,
    tagged with the two directory paths. -/
theorem c4_conflicts (path1 path2 : String) (in1 in2 : List String) :
    ((∀ x ∈ in1, x ∉ in2) →
      checkConflicts path1 path2 in1 in2 = Except.ok ()) ∧
    ((∃ x, x ∈ in1 ∧ x ∈ in2) →
      ∃ cd : ConflictData,
        checkConflicts path1 path2 in1 in2 = Except.error cd ∧
        cd.names.toFinset = in1.toFinset ∩ in2.toFinset ∧
        cd.dir1 = path1 ∧ cd.dir2 = path2) := by
  constructor
  · intro hdisj
    unfold checkConflicts
    have hnil : lodashIntersection in1 in2 = [] := by
      rw [List.eq_nil_iff_forall_not_mem]
      intro y hy
      rw [mem_lodashIntersection] at hy
      exact hdisj y hy.1 hy.2
    simp [hnil]
  · rintro ⟨x, hx1, hx2⟩
    have hmem : x ∈ lodashIntersection in1 in2 :=
      (mem_lodashIntersection _ _ _).mpr ⟨hx1, hx2⟩
    have hne : (lodashIntersection in1 in2).length ≠ 0 := by
      intro h0
      rw [List.length_eq_zero] at h0
      rw [h0] at hmem
      simp at hmem
    refine ⟨⟨lodashIntersection in1 in2, path1, path2⟩, ?_, ?_, rfl, rfl⟩
    · unfold checkConflicts
      rw [if_pos hne]
    · ext y
      simp [mem_lodashIntersection]

/-- Witness for C4, at two listings sharing the entry name of the spec's
    example conflict. -/
theorem c4_conflicts_witness :
    ∃ cd : ConflictData,
      checkConflicts ("web/app/themes") ("web/wp/wp-content/themes")
        ["style.css", "a"] ["style.css", "b"] = Except.error cd ∧
      cd.names.toFinset =
        (["style.css", "a"] : List String).toFinset ∩
          (["style.css", "b"] : List String).toFinset ∧
      cd.dir1 = "web/app/themes" ∧ cd.dir2 = "web/wp/wp-content/themes" :=
  (c4_conflicts ("web/app/themes") ("web/wp/wp-content/themes")
    ["style.css", "a"] ["style.css", "b"]).2
    ⟨"style.css", by simp, by simp⟩

/-- C6: whatever rows the options table holds for the two option keys
    beforehand, after updateDbSiteUrl it holds exactly one siteurl row and
    exactly one home row, both carrying the configured site URL. -/
theorem c6_update_site_url (url : List Char)
    (rows : List (List Char × List Char)) :
    (updateDbSiteUrl url rows).filter (fun r => r.1 == siteurlKey) =
      [(siteurlKey, url)] ∧
    (updateDbSiteUrl url rows).filter (fun r => r.1 == homeKey) =
      [(homeKey, url)] := by
  unfold updateDbSiteUrl
  constructor
  · rw [List.filter_append]
    have h1 : (rows.filter
        (fun r => !(r.1 == siteurlKey || r.1 == homeKey))).filter
          (fun r => r.1 == siteurlKey) = [] := by
      rw [List.filter_eq_nil_iff]
      intro r hr
      have h2 := (List.mem_filter.mp hr).2
      intro h3
      rw [h3] at h2
      simp at h2
    rw [h1]
    rfl
  · rw [List.filter_append]
    have h1 : (rows.filter
        (fun r => !(r.1 == siteurlKey || r.1 == homeKey))).filter
          (fun r => r.1 == homeKey) = [] := by
      rw [List.filter_eq_nil_iff]
      intro r hr
      have h2 := (List.mem_filter.mp hr).2
      intro h3
      rw [h3] at h2
      simp at h2
    rw [h1]
    rfl

/-- C8: the process exit code of a run is 0 exactly when the full phase
    sequence completes, 1 exactly when the run stops with an Interruption
    (a presence or conflict violation), and 127 exactly when it stops with
    any other failure. -/
theorem c8_exit_codes (w : World) :
    (mainExitCode (runEngine w) = 0 ↔ runEngine w = Except.ok ()) ∧
    (mainExitCode (runEngine w) = 1 ↔
      ∃ v, runEngine w = Except.error (JsError.interruption v)) ∧
    (mainExitCode (runEngine w) = 127 ↔
      ∃ s, runEngine w = Except.error (JsError.unexpected s)) := by
  rcases hr : runEngine w with e | u
  · cases e with
    | interruption v => simp [mainExitCode]
    | unexpected s => simp [mainExitCode]
  · simp [mainExitCode]

/-- C9: archiving a path that does not exist returns the no-op result
    (`false` in the source) and performs zero filesystem mutation: the
    effect list is empty and the workspace tree is untouched. -/
theorem c9_archive_absent (root : String) (ex : String → Bool) (p : String)
    (h : ex p = false) :
    archive root ex p = ([], ArchiveOutcome.returnedFalse) := by
  unfold archive
  simp [h]

/-- Witness for C9, at a workspace where no path exists. -/
theorem c9_archive_absent_witness :
    archive ("/work") (fun _ => false) ("web/app") =
      ([], ArchiveOutcome.returnedFalse) :=
  c9_archive_absent ("/work") (fun _ => false) ("web/app") rfl

theorem countSpaces_append (a b : List Char) :
    countSpaces (a ++ b) = countSpaces a + countSpaces b := by
  unfold countSpaces
  rw [List.countP_append]

theorem countSpaces_ph : countSpaces ph = 4 := by decide

theorem ph_ne_nil : ph ≠ [] := by decide

theorem space_mem_ph : spaceC ∈ ph := by decide

theorem alnumC_space : alnumC spaceC = false := by decide

theorem alnumC_dollar : alnumC dollarC = false := by decide

theorem alnum_no_space {g : List Char} (h : ∀ c ∈ g, alnumC c = true) :
    countSpaces g = 0 := by
  unfold countSpaces
  rw [List.countP_eq_zero]
  intro c hc hsp
  rw [beq_iff_eq] at hsp
  subst hsp
  exact absurd (h spaceC hc) (by decide)

theorem alnum_no_dollar {g : List Char} (h : ∀ c ∈ g, alnumC c = true) :
    dollarC ∉ g :=
  fun hm => absurd (h dollarC hm) (by decide)

theorem alnum_not_contains_ph {g : List Char}
    (h : ∀ c ∈ g, alnumC c = true) : containsSub ph g = false := by
  cases hc : containsSub ph g
  · rfl
  · exact absurd (h spaceC (mem_of_containsSub hc spaceC space_mem_ph))
      (by decide)

theorem splitFirst_none_of_not_contains {p t : List Char}
    (h : containsSub p t = false) : splitFirst p t = none := by
  unfold containsSub at h
  cases hsf : splitFirst p t
  · rfl
  · rw [hsf] at h; simp at h

theorem replaceSecretsK_no_occ (gen : Nat → List Char) (fuel i : Nat)
    {t : List Char} (h : containsSub ph t = false) :
    replaceSecretsK gen fuel i t = (t, 0) := by
  cases fuel with
  | zero => rfl
  | succ f =>
    simp only [replaceSecretsK, splitFirst_none_of_not_contains h]

/-- The space count strictly decreases by four at every performed
    iteration of the loop, whenever the inserted token is alphanumeric. -/
theorem countSpaces_step {a b g : List Char}
    (hg : ∀ c ∈ g, alnumC c = true) :
    countSpaces (a ++ expandRepl ph a b g ++ b) + 4 =
      countSpaces (a ++ ph ++ b) := by
  rw [expandRepl_id (alnum_no_dollar hg)]
  rw [countSpaces_append, countSpaces_append, countSpaces_append,
    countSpaces_append, countSpaces_ph, alnum_no_space hg]
  omega

/-- Fuel equal to the space count lets the loop run to its exit condition:
    the result holds no occurrence of the placeholder. -/
theorem replaceSecrets_fuel {gen : Nat → List Char}
    (halnum : ∀ n, ∀ c ∈ gen n, alnumC c = true) :
    ∀ fuel i t, countSpaces t ≤ fuel →
      containsSub ph (replaceSecrets gen fuel i t) = false := by
  intro fuel
  induction fuel with
  | zero =>
    intro i t hle
    have h0 : countSpaces t = 0 := Nat.le_zero.mp hle
    show containsSub ph t = false
    cases hc : containsSub ph t
    · rfl
    · exfalso
      rw [containsSub_iff] at hc
      obtain ⟨a, b, rfl⟩ := hc
      rw [countSpaces_append, countSpaces_append, countSpaces_ph] at h0
      omega
  | succ fuel ih =>
    intro i t hle
    cases hsf : splitFirst ph t with
    | none =>
      have hres : replaceSecrets gen (fuel + 1) i t = t := by
        unfold replaceSecrets
        simp only [replaceSecretsK, hsf]
      rw [hres]
      unfold containsSub
      rw [hsf]
      rfl
    | some ab =>
      obtain ⟨a, b⟩ := ab
      have hteq : t = a ++ ph ++ b := splitFirst_some hsf
      have hexp : expandRepl ph a b (gen i) = gen i :=
        expandRepl_id (alnum_no_dollar (halnum i))
      have heq : replaceSecrets gen (fuel + 1) i t =
          replaceSecrets gen fuel (i + 1) (a ++ gen i ++ b) := by
        unfold replaceSecrets
        simp only [replaceSecretsK, hsf, hexp]
      rw [heq]
      apply ih
      have h1 : countSpaces t = countSpaces a + 4 + countSpaces b := by
        rw [hteq, countSpaces_append, countSpaces_append, countSpaces_ph]
      have h2 : countSpaces (a ++ gen i ++ b) =
          countSpaces a + countSpaces b := by
        rw [countSpaces_append, countSpaces_append,
          alnum_no_space (halnum i)]
        omega
      omega

theorem phCleanB_spec {s : List Char} (h : phCleanB s = true) : phClean s := by
  unfold phCleanB at h
  rw [Bool.and_eq_true] at h
  obtain ⟨h1, h2⟩ := h
  rw [List.all_eq_true] at h2
  have hget : ∀ k, 0 < k → k < ph.length →
      isSufB (ph.take k) s = false ∧ isPreB (ph.drop k) s = false ∧
        isPreB s (ph.drop k) = false := by
    intro k hk1 hk2
    have hk := h2 k (List.mem_range.mpr hk2)
    rw [Bool.or_eq_true] at hk
    rcases hk with hz | hb
    · simp at hz; omega
    · rw [Bool.and_eq_true, Bool.and_eq_true] at hb
      refine ⟨?_, ?_, ?_⟩
      · cases hx : isSufB (ph.take k) s
        · rfl
        · rw [hx] at hb; simp at hb
      · cases hx : isPreB (ph.drop k) s
        · rfl
        · rw [hx] at hb; simp at hb
      · cases hx : isPreB s (ph.drop k)
        · rfl
        · rw [hx] at hb; simp at hb
  refine ⟨?_, fun k hk1 hk2 => (hget k hk1 hk2).1,
    fun k hk1 hk2 => ⟨(hget k hk1 hk2).2.1, (hget k hk1 hk2).2.2⟩⟩
  cases hx : containsSub ph s
  · rfl
  · rw [hx] at h1; simp at h1

theorem phClean_cleanP {s : List Char} (h : phClean s) : cleanP ph s :=
  ⟨h.1, h.2.1⟩

theorem isPreB_take (l : List Char) (n : Nat) :
    isPreB (l.take n) l = true := by
  rw [isPreB_iff]
  exact ⟨l.drop n, (List.take_append_drop n l).symm⟩

/-- Space positions of the placeholder: any prefix of length at least four
    contains a space. -/
theorem ph_take_space : ∀ k, k < ph.length → 4 ≤ k → spaceC ∈ ph.take k := by
  decide

/-- An alphanumeric token can only end in a prefix of the placeholder of
    length at most three. -/
theorem alnum_suf_ph_take {g : List Char} (hg : ∀ c ∈ g, alnumC c = true)
    {k : Nat} (hk : k < ph.length) (h : isSufB (ph.take k) g = true) :
    k ≤ 3 := by
  by_contra hgt
  push_neg at hgt
  have hs : spaceC ∈ ph.take k := ph_take_space k hk (by omega)
  have hmem := mem_of_isSufB h spaceC hs
  exact absurd (hg spaceC hmem) (by decide)

/-- The loop's concatenation step preserves cleanliness: a clean segment,
    an alphanumeric token, and a clean segment form a clean segment. -/
theorem phClean_triple {s g s' : List Char} (hs : phClean s)
    (hs' : phClean s') (hg : ∀ c ∈ g, alnumC c = true) :
    phClean (s ++ g ++ s') := by
  obtain ⟨hs1, hs2, hs3⟩ := hs
  obtain ⟨hs1', hs2', hs3'⟩ := hs'
  refine ⟨?_, ?_, ?_⟩
  · cases hc : containsSub ph (s ++ g ++ s')
    · rfl
    · exfalso
      have hc2 : containsSub ph (s ++ (g ++ s')) = true := by
        simpa [List.append_assoc] using hc
      rcases containsSub_append_split hc2 with hin | hin |
        ⟨k, hk1, hk2, hsuf, hpre⟩
      · rw [hin] at hs1; exact boolAbsurd hs1
      · rcases containsSub_append_split hin with hin2 | hin2 |
          ⟨k, hk1, hk2, hsuf, hpre⟩
        · rw [alnum_not_contains_ph hg] at hin2
          exact boolAbsurd hin2.symm
        · rw [hin2] at hs1'; exact boolAbsurd hs1'
        · have hpre2 := (hs3' k hk1 hk2).1
          rw [hpre] at hpre2; exact boolAbsurd hpre2
      · have hsuf2 := hs2 k hk1 hk2
        rw [hsuf] at hsuf2; exact boolAbsurd hsuf2
  · intro k hk1 hk2
    cases hsb : isSufB (ph.take k) (s ++ g ++ s')
    · rfl
    · exfalso
      rcases isSufB_append_split hsb with ⟨hl, hfb⟩ | ⟨hl, hbeq, hsufa⟩
      · have hx := hs2' k hk1 hk2
        rw [hfb] at hx; exact boolAbsurd hx
      · set j := (ph.take k).length - s'.length with hjdef
        have hjlen : (ph.take k).length ≤ k := by simp
        have hj1 : 0 < j := by omega
        have hj2 : j < ph.length := by omega
        have hs'eq : s' = (ph.drop j).take (k - j) := by
          rw [hbeq, List.drop_take]
        have hpre : isPreB s' (ph.drop j) = true := by
          rw [hs'eq]
          exact isPreB_take _ _
        have h2 := (hs3' j hj1 hj2).2
        rw [hpre] at h2; exact boolAbsurd h2
  · intro k hk1 hk2
    constructor
    · cases hx : isPreB (ph.drop k) (s ++ g ++ s')
      · rfl
      · exfalso
        have hx2 : isPreB (ph.drop k) (s ++ (g ++ s')) = true := by
          simpa [List.append_assoc] using hx
        rcases isPreB_append_split hx2 with ⟨hl, hps⟩ | ⟨hl, ha, _⟩
        · have h2 := (hs3 k hk1 hk2).1
          rw [hps] at h2; exact boolAbsurd h2
        · have hpre : isPreB s (ph.drop k) = true := by
            rw [ha]
            exact isPreB_take _ _
          have h2 := (hs3 k hk1 hk2).2
          rw [hpre] at h2; exact boolAbsurd h2
    · cases hx : isPreB (s ++ g ++ s') (ph.drop k)
      · rfl
      · exfalso
        have hpre_s : isPreB s (s ++ g ++ s') = true := by
          have hsa := isPreB_self_append s (g ++ s')
          simpa [List.append_assoc] using hsa
        have hpre : isPreB s (ph.drop k) = true := isPreB_trans hpre_s hx
        have h2 := (hs3 k hk1 hk2).2
        rw [hpre] at h2; exact boolAbsurd h2

theorem joinWithPh_merge (a b c : List Char) (rest : List (List Char)) :
    joinWithPh ((a ++ b ++ c) :: rest) = a ++ b ++ joinWithPh (c :: rest) := by
  cases rest with
  | nil => rfl
  | cons r rr => simp [joinWithPh, List.append_assoc]

theorem joinWithTokens_merge (gen : Nat → List Char) (i : Nat)
    (a b c : List Char) (rest : List (List Char)) :
    joinWithTokens gen i ((a ++ b ++ c) :: rest) =
      a ++ b ++ joinWithTokens gen i (c :: rest) := by
  cases rest with
  | nil => rfl
  | cons r rr => simp [joinWithTokens, List.append_assoc]

/-- On a structured template with clean segments and alphanumeric tokens,
    the loop performs exactly one replacement per designated occurrence, in
    order, inserting the tokens of the source in order. -/
theorem loop_structured {gen : Nat → List Char}
    (halnum : ∀ n, ∀ c ∈ gen n, alnumC c = true) :
    ∀ n : Nat, ∀ segs : List (List Char), segs.length = n + 1 →
      ∀ i fuel : Nat, (∀ s ∈ segs, phClean s) → n ≤ fuel →
      replaceSecretsK gen fuel i (joinWithPh segs) =
        (joinWithTokens gen i segs, n) := by
  intro n
  induction n with
  | zero =>
    intro segs hlen i fuel hclean _
    obtain ⟨s, rfl⟩ : ∃ s, segs = [s] := by
      cases segs with
      | nil => exact absurd hlen (by simp)
      | cons s rest =>
        cases rest with
        | nil => exact ⟨s, rfl⟩
        | cons a l =>
          exfalso
          simp only [List.length_cons] at hlen
          omega
    have hns : containsSub ph s = false := (hclean s (by simp)).1
    show replaceSecretsK gen fuel i s = (s, 0)
    exact replaceSecretsK_no_occ gen fuel i hns
  | succ n ihn =>
    intro segs hlen i fuel hclean hfuel
    obtain ⟨s, s2, rest, rfl⟩ : ∃ s s2 rest, segs = s :: s2 :: rest := by
      cases segs with
      | nil => exact absurd hlen (by simp)
      | cons s r =>
        cases r with
        | nil =>
          exfalso
          simp only [List.length_cons, List.length_nil] at hlen
          omega
        | cons s2 rest => exact ⟨s, s2, rest, rfl⟩
    have hrest_len : rest.length = n := by
      simp only [List.length_cons] at hlen
      omega
    obtain ⟨f, rfl⟩ : ∃ f, fuel = f + 1 := ⟨fuel - 1, by omega⟩
    have hcs : phClean s := hclean s (by simp)
    have hcs2 : phClean s2 := hclean s2 (by simp)
    have hsplit : splitFirst ph (joinWithPh (s :: s2 :: rest)) =
        some (s, joinWithPh (s2 :: rest)) := by
      show splitFirst ph (s ++ ph ++ joinWithPh (s2 :: rest)) = _
      exact firstAt ph_ne_nil (phClean_cleanP hcs)
    have hexp : expandRepl ph s (joinWithPh (s2 :: rest)) (gen i) = gen i :=
      expandRepl_id (alnum_no_dollar (halnum i))
    have hmerge : s ++ gen i ++ joinWithPh (s2 :: rest) =
        joinWithPh ((s ++ gen i ++ s2) :: rest) :=
      (joinWithPh_merge s (gen i) s2 rest).symm
    have hnewclean : ∀ x ∈ (s ++ gen i ++ s2) :: rest, phClean x := by
      intro x hx
      rcases List.mem_cons.mp hx with rfl | hx'
      · exact phClean_triple hcs hcs2 (halnum i)
      · exact hclean x (by simp [hx'])
    have hihlen : ((s ++ gen i ++ s2) :: rest).length = n + 1 := by
      simp [hrest_len]
    have hih := ihn ((s ++ gen i ++ s2) :: rest) hihlen (i + 1) f hnewclean
      (by omega)
    have hstep : replaceSecretsK gen (f + 1) i
        (joinWithPh (s :: s2 :: rest)) =
        ((replaceSecretsK gen f (i + 1)
            (s ++ gen i ++ joinWithPh (s2 :: rest))).1,
          (replaceSecretsK gen f (i + 1)
            (s ++ gen i ++ joinWithPh (s2 :: rest))).2 + 1) := by
      simp only [replaceSecretsK, hsplit, hexp]
    rw [hstep, hmerge, hih]
    show (joinWithTokens gen (i + 1) ((s ++ gen i ++ s2) :: rest), n + 1) = _
    rw [joinWithTokens_merge]
    rfl

theorem aTok_alnum : ∀ c ∈ aTok, alnumC c = true := by decide

/-- C10 counterexample: on this template the single placeholder occurrence
    is replaced by an alphanumeric 64-character token, yet a new occurrence
    appears across the insertion boundary, so the number of occurrences does
    not strictly decrease in that iteration: it stays at one. -/
theorem c10_counterexample :
    (∀ c ∈ cexToken, alnumC c = true) ∧ cexToken.length = 64 ∧
    countOcc ph cexTemplate = 1 ∧
    countOcc ph (replaceSecrets (fun _ => cexToken) 1 0 cexTemplate) = 1 := by
  refine ⟨by decide, by decide, ?_, ?_⟩ <;> decide

/-- C10 amended: the loop terminates on every template because each
    alphanumeric token is space-free and hence can never contain the
    placeholder, and each iteration removes the four spaces of the replaced
    occurrence while inserting a space-free token, so the space count (not
    the occurrence count) strictly decreases by four per iteration; fuel
    equal to the template's space count suffices and the resulting text
    holds no occurrence of the placeholder. -/
theorem c10_loop_termination {gen : Nat → List Char} (t : List Char)
    (fuel i : Nat)
    (halnum : ∀ n, ∀ c ∈ gen n, alnumC c = true)
    (hfuel : countSpaces t ≤ fuel) :
    containsSub ph (replaceSecrets gen fuel i t) = false ∧
    containsSub ph (gen i) = false ∧
    (∀ a b, splitFirst ph t = some (a, b) →
      countSpaces (a ++ expandRepl ph a b (gen i) ++ b) + 4 =
        countSpaces t) := by
  refine ⟨replaceSecrets_fuel halnum fuel i t hfuel,
    alnum_not_contains_ph (halnum i), ?_⟩
  intro a b hsf
  have hteq : t = a ++ ph ++ b := splitFirst_some hsf
  rw [hteq]
  exact countSpaces_step (halnum i)

/-- Witness for C10 amended, at the placeholder itself as template and a
    constant alphanumeric source. -/
theorem c10_loop_termination_witness :
    containsSub ph (replaceSecrets (fun _ => aTok) 4 0 ph) = false ∧
    containsSub ph ((fun _ => aTok) 0) = false ∧
    (∀ a b, splitFirst ph ph = some (a, b) →
      countSpaces (a ++ expandRepl ph a b ((fun _ => aTok) 0) ++ b) + 4 =
        countSpaces ph) :=
  c10_loop_termination ph 4 0 (fun _ => aTok_alnum) (by decide)

/-- C7 counterexample: this template holds exactly one occurrence of the
    placeholder and the source yields pairwise distinct alphanumeric
    tokens, yet the loop performs two replacements and therefore consumes
    two random tokens, not one token for the one original occurrence. -/
theorem c7_counterexample :
    countOcc ph cexTemplate = 1 ∧
    cexGen 0 ≠ cexGen 1 ∧
    (∀ c ∈ cexGen 0, alnumC c = true) ∧
    (∀ c ∈ cexGen 1, alnumC c = true) ∧
    (replaceSecretsK cexGen 8 0 cexTemplate).2 = 2 := by
  refine ⟨?_, by decide, by decide, by decide, ?_⟩ <;> decide

/-- C7 amended: on a template of clean segments joined by N placeholder
    occurrences, with an alphanumeric random source, the loop performs
    exactly N replacements, occurrence i receiving the i-th generated
    token, and when the source yields pairwise distinct values the inserted
    secrets are pairwise distinct. -/
theorem c7_one_token_per_occurrence (gen : Nat → List Char)
    (segs : List (List Char)) (i fuel : Nat)
    (halnum : ∀ n, ∀ c ∈ gen n, alnumC c = true)
    (hne : segs ≠ [])
    (hclean : ∀ s ∈ segs, phClean s)
    (hfuel : segs.length - 1 ≤ fuel) :
    replaceSecretsK gen fuel i (joinWithPh segs) =
      (joinWithTokens gen i segs, segs.length - 1) ∧
    ((∀ a b : Nat, gen a = gen b → a = b) →
      ((List.range (segs.length - 1)).map (fun j => gen (i + j))).Nodup) := by
  constructor
  · obtain ⟨s, rest, rfl⟩ : ∃ s rest, segs = s :: rest := by
      cases segs with
      | nil => exact absurd rfl hne
      | cons s rest => exact ⟨s, rest, rfl⟩
    have hlen : (s :: rest).length = rest.length + 1 := by simp
    have hmain := loop_structured halnum rest.length (s :: rest) hlen i fuel
      hclean (by simpa using hfuel)
    simpa using hmain
  · intro hinj
    have hf : Function.Injective (fun j => gen (i + j)) := by
      intro a b hab
      have h2 := hinj (i + a) (i + b) hab
      omega
    exact List.Nodup.map hf (List.nodup_range _)

/-- Witness for C7 amended, at a two-segment template with one occurrence
    and a constant alphanumeric source. -/
theorem c7_one_token_per_occurrence_witness :
    replaceSecretsK (fun _ => aTok) 1 0
        (joinWithPh ["AB".toList, "CD".toList]) =
      (joinWithTokens (fun _ => aTok) 0 ["AB".toList, "CD".toList], 1) :=
  (c7_one_token_per_occurrence (fun _ => aTok) ["AB".toList, "CD".toList] 0 1
    (fun _ => aTok_alnum) (by simp)
    (by
      intro s hs
      rcases List.mem_cons.mp hs with rfl | hs'
      · exact phCleanB_spec (by decide)
      · rcases List.mem_cons.mp hs' with rfl | hs''
        · exact phCleanB_spec (by decide)
        · simp at hs'')
    (by decide)).1

theorem cleanAllB_spec {s : List Char} (h : cleanAllB s = true) :
    cleanAll s := by
  intro p hp
  unfold cleanAllB at h
  rw [List.all_eq_true] at h
  exact cleanPartB_spec (h p hp)

theorem replaceSecrets_no_occ {gen : Nat → List Char} {fuel i : Nat}
    {t : List Char} (h : containsSub ph t = false) :
    replaceSecrets gen fuel i t = t := by
  unfold replaceSecrets
  rw [replaceSecretsK_no_occ gen fuel i h]

theorem matchTP_isPre {s : List Char} {n : Nat} (h : matchTP s = some n) :
    isPreB tpHead s = true := by
  unfold matchTP at h
  by_cases hp : isPreB tpHead s = true
  · exact hp
  · rw [if_neg hp] at h
    simp at h

theorem splitFirstTP_none {s : List Char}
    (h : containsSub tpHead s = false) : splitFirstTP s = none := by
  induction s with
  | nil => rfl
  | cons c s ih =>
    have hc := containsSub_cons_false h
    have hm : matchTP (c :: s) = none := by
      cases hmt : matchTP (c :: s) with
      | none => rfl
      | some n =>
        exfalso
        have hpre := matchTP_isPre hmt
        rw [hc.1] at hpre
        exact boolAbsurd hpre.symm
    simp only [splitFirstTP, hm]
    rw [ih hc.2]
    rfl

theorem replaceTP_no_occ {e : EnvCfg} {s : List Char}
    (h : containsSub tpHead s = false) : replaceTP e s = s := by
  unfold replaceTP
  rw [splitFirstTP_none h]

/-- C5 counterexample: rendering a template holding the four legacy
    literals with the spec's own example EnvConfig (all database keys
    supplied, DB_HOST = "localhost") leaves an occurrence of the literal
    "localhost" in the output, so the rendered text does not contain zero
    occurrences of every legacy literal. -/
theorem c5_counterexample :
    containsSub dbHostLit
      (populateWpConfig c5cexEnv (fun _ => aTok) c5cexTemplate) = true := by
  decide

/-- C5 amended: the secret-placeholder clause holds for every template and
    EnvConfig once the random tokens are alphanumeric; the four-literal
    clause holds on templates carrying each literal exactly once, in fold
    order, whose segments are clean for every fold pattern, with
    substitution values that are clean, dollar-free, and an empty
    DB_PREFIX: the fold then rewrites exactly the four designated
    occurrences and the output contains no occurrence of any legacy
    literal. -/
theorem c5_render (e : EnvCfg) (gen : Nat → List Char)
    (s0 s1 s2 s3 s4 : List Char)
    (hs0 : cleanAll s0) (hs1 : cleanAll s1) (hs2 : cleanAll s2)
    (hs3 : cleanAll s3) (hs4 : cleanAll s4)
    (hv1 : cleanAll e.dbName) (hd1 : dollarC ∉ e.dbName)
    (hv2 : cleanAll e.dbUser) (hd2 : dollarC ∉ e.dbUser)
    (hv3 : cleanAll e.dbPassword) (hd3 : dollarC ∉ e.dbPassword)
    (hv4 : cleanAll e.dbHost) (hd4 : dollarC ∉ e.dbHost)
    (hpref : e.dbPref = []) :
    (∀ e' : EnvCfg, ∀ gen' : Nat → List Char, ∀ t : List Char,
      (∀ n, ∀ c ∈ gen' n, alnumC c = true) →
      containsSub ph (populateWpConfig e' gen' t) = false) ∧
    populateWpConfig e gen (structTemplate s0 s1 s2 s3 s4) =
      s0 ++ e.dbName ++ s1 ++ e.dbUser ++ s2 ++ e.dbPassword ++ s3 ++
        e.dbHost ++ s4 ∧
    (∀ p ∈ lits4, containsSub p (populateWpConfig e gen
      (structTemplate s0 s1 s2 s3 s4)) = false) := by
  have hcleanX : ∀ p ∈ patsAll, cleanP p
      (s0 ++ e.dbName ++ s1 ++ e.dbUser ++ s2 ++ e.dbPassword ++ s3 ++
        e.dbHost ++ s4) := by
    intro p hp
    exact cleanP_append (cleanP_append (cleanP_append (cleanP_append
      (cleanP_append (cleanP_append (cleanP_append (cleanP_append
        (hs0 p hp) (hv1 p hp)) (hs1 p hp)) (hv2 p hp)) (hs2 p hp))
        (hv3 p hp)) (hs3 p hp)) (hv4 p hp)) (hs4 p hp)
  have h1 : replaceFirst dbNameLit e.dbName
      (structTemplate s0 s1 s2 s3 s4) =
      s0 ++ e.dbName ++
        (s1 ++ dbUserLit ++ s2 ++ dbPassLit ++ s3 ++ dbHostLit ++ s4) := by
    have e0 : structTemplate s0 s1 s2 s3 s4 =
        s0 ++ dbNameLit ++
          (s1 ++ dbUserLit ++ s2 ++ dbPassLit ++ s3 ++ dbHostLit ++ s4) := by
      simp [structTemplate, List.append_assoc]
    rw [e0]
    exact replaceFirst_at (by decide) (hs0 dbNameLit (by simp [patsAll])) hd1
  have h2 : replaceFirst dbUserLit e.dbUser
      (s0 ++ e.dbName ++
        (s1 ++ dbUserLit ++ s2 ++ dbPassLit ++ s3 ++ dbHostLit ++ s4)) =
      s0 ++ e.dbName ++ s1 ++ e.dbUser ++
        (s2 ++ dbPassLit ++ s3 ++ dbHostLit ++ s4) := by
    have e0 : s0 ++ e.dbName ++
        (s1 ++ dbUserLit ++ s2 ++ dbPassLit ++ s3 ++ dbHostLit ++ s4) =
        s0 ++ e.dbName ++ s1 ++ dbUserLit ++
          (s2 ++ dbPassLit ++ s3 ++ dbHostLit ++ s4) := by
      simp [List.append_assoc]
    rw [e0]
    exact replaceFirst_at (by decide)
      (cleanP_append (cleanP_append (hs0 _ (by simp [patsAll]))
        (hv1 _ (by simp [patsAll]))) (hs1 _ (by simp [patsAll]))) hd2
  have h3 : replaceFirst dbPassLit e.dbPassword
      (s0 ++ e.dbName ++ s1 ++ e.dbUser ++
        (s2 ++ dbPassLit ++ s3 ++ dbHostLit ++ s4)) =
      s0 ++ e.dbName ++ s1 ++ e.dbUser ++ s2 ++ e.dbPassword ++
        (s3 ++ dbHostLit ++ s4) := by
    have e0 : s0 ++ e.dbName ++ s1 ++ e.dbUser ++
        (s2 ++ dbPassLit ++ s3 ++ dbHostLit ++ s4) =
        s0 ++ e.dbName ++ s1 ++ e.dbUser ++ s2 ++ dbPassLit ++
          (s3 ++ dbHostLit ++ s4) := by
      simp [List.append_assoc]
    rw [e0]
    exact replaceFirst_at (by decide)
      (cleanP_append (cleanP_append (cleanP_append (cleanP_append
        (hs0 _ (by simp [patsAll])) (hv1 _ (by simp [patsAll])))
        (hs1 _ (by simp [patsAll]))) (hv2 _ (by simp [patsAll])))
        (hs2 _ (by simp [patsAll]))) hd3
  have h4 : replaceFirst dbHostLit e.dbHost
      (s0 ++ e.dbName ++ s1 ++ e.dbUser ++ s2 ++ e.dbPassword ++
        (s3 ++ dbHostLit ++ s4)) =
      s0 ++ e.dbName ++ s1 ++ e.dbUser ++ s2 ++ e.dbPassword ++ s3 ++
        e.dbHost ++ s4 := by
    have e0 : s0 ++ e.dbName ++ s1 ++ e.dbUser ++ s2 ++ e.dbPassword ++
        (s3 ++ dbHostLit ++ s4) =
        s0 ++ e.dbName ++ s1 ++ e.dbUser ++ s2 ++ e.dbPassword ++ s3 ++
          dbHostLit ++ s4 := by
      simp [List.append_assoc]
    rw [e0]
    have hstep := replaceFirst_at (p := dbHostLit) (v := e.dbHost)
      (x := s0 ++ e.dbName ++ s1 ++ e.dbUser ++ s2 ++ e.dbPassword ++ s3)
      (t := s4) (by decide)
      (cleanP_append (cleanP_append (cleanP_append (cleanP_append
        (cleanP_append (cleanP_append (hs0 _ (by simp [patsAll]))
          (hv1 _ (by simp [patsAll]))) (hs1 _ (by simp [patsAll])))
          (hv2 _ (by simp [patsAll]))) (hs2 _ (by simp [patsAll])))
          (hv3 _ (by simp [patsAll]))) (hs3 _ (by simp [patsAll]))) hd4
    exact hstep
  have hf5 : fold5 e (structTemplate s0 s1 s2 s3 s4) =
      s0 ++ e.dbName ++ s1 ++ e.dbUser ++ s2 ++ e.dbPassword ++ s3 ++
        e.dbHost ++ s4 := by
    unfold fold5
    rw [h1, h2, h3, h4]
    exact replaceFirst_of_not_contains
      (hcleanX debugFind (by simp [patsAll])).1
  have hfold : foldTemplate e (structTemplate s0 s1 s2 s3 s4) =
      s0 ++ e.dbName ++ s1 ++ e.dbUser ++ s2 ++ e.dbPassword ++ s3 ++
        e.dbHost ++ s4 := by
    unfold foldTemplate
    rw [if_pos hpref, hf5]
  have hpop : populateWpConfig e gen (structTemplate s0 s1 s2 s3 s4) =
      s0 ++ e.dbName ++ s1 ++ e.dbUser ++ s2 ++ e.dbPassword ++ s3 ++
        e.dbHost ++ s4 := by
    unfold populateWpConfig
    rw [hfold]
    exact replaceSecrets_no_occ (hcleanX ph (by simp [patsAll])).1
  refine ⟨?_, hpop, ?_⟩
  · intro e' gen' t halnum
    unfold populateWpConfig
    exact replaceSecrets_fuel halnum _ 0 _ (Nat.le_refl _)
  · intro p hp
    rw [hpop]
    exact (hcleanX p (by
      unfold lits4 at hp
      unfold patsAll
      rcases List.mem_cons.mp hp with rfl | hp'
      · simp
      · rcases List.mem_cons.mp hp' with rfl | hp''
        · simp
        · rcases List.mem_cons.mp hp'' with rfl | hp3
          · simp
          · rcases List.mem_cons.mp hp3 with rfl | hp4
            · simp
            · simp at hp4)).1

/-- Witness for C5 amended, at a five-segment clean template and the clean
    example environment: the render equals the interleaving of segments and
    values. -/
theorem c5_render_witness :
    populateWpConfig c5wEnv (fun _ => aTok)
        (structTemplate ("A>".toList) ("B>".toList) ("C>".toList)
          ("D>".toList) ("E>".toList)) =
      "A>".toList ++ "WP1".toList ++ "B>".toList ++ "USR".toList ++
        "C>".toList ++ "PWD".toList ++ "D>".toList ++ "HST".toList ++
        "E>".toList :=
  (c5_render c5wEnv (fun _ => aTok) ("A>".toList) ("B>".toList)
    ("C>".toList) ("D>".toList) ("E>".toList)
    (cleanAllB_spec (by decide)) (cleanAllB_spec (by decide))
    (cleanAllB_spec (by decide)) (cleanAllB_spec (by decide))
    (cleanAllB_spec (by decide))
    (cleanAllB_spec (by decide)) (by decide)
    (cleanAllB_spec (by decide)) (by decide)
    (cleanAllB_spec (by decide)) (by decide)
    (cleanAllB_spec (by decide)) (by decide)
    rfl).2.1

end Debed
